import Mathlib

/-!
Verification development for the_floor_game/core.py.

The Python core is shallowly embedded: Python ints become Int, the board's
cell dictionary becomes a function from (Int x Int) keys to an optional stored
value, mutation becomes explicit state passing, and raising becomes returning
an error value paired with the state at the raise site.  Fallible operations
return (Except Err result, Game) so that the state left behind by a failing
call is part of the result.

Python stores Player objects in an id-keyed dict and Duel objects hold
references to those same Player objects.  Player ids are immutable and the
data model requires them unique, so the embedding keeps the players as a list
in insertion order (lookups go through the first id match) and a Duel stores
its participants' ids; every live read through a duel's player reference is
embedded as a lookup of that id in the game's player list.
-/

namespace TheFloorGame

/-- A knowledge category or expertise area (core.py, class Category). -/
structure Category where
  name : String
  description : Option String := none
deriving DecidableEq, Repr

/-- A player (core.py, class Player): id, name, optional expertise,
owned board cells, elimination flag. -/
structure Player where
  id : Int
  name : String
  expertise : Option Category := none
  positions : List (Int × Int) := []
  eliminated : Bool := false
deriving DecidableEq, Repr

/-- Player.choose_expertise: set the player's expertise/category. -/
def Player.choose_expertise (p : Player) (category : Category) : Player :=
  { p with expertise := some category }

/-- Player.primary_position: one representative position (or none). -/
def Player.primary_position (p : Player) : Option (Int × Int) :=
  p.positions.head?

/-- A duel (core.py, class Duel).  The Python object stores references to the
two Player objects; since ids are immutable, the embedding stores the two ids
and dereferences the game's player list wherever the source reads a live
field through the reference. -/
structure Duel where
  challenger_id : Int
  challenged_id : Int
  category : Category
  winner_id : Option Int := none
deriving DecidableEq, Repr

/-- The error kinds of the spec's taxonomy; each constructor corresponds to
one raise site in core.py. -/
inductive Err where
  | InvalidDimension
  | CardinalityMismatch
  | UnknownPlayer
  | SelfChallenge
  | NoExpertiseSet
  | UnknownDuel
  | InvalidWinner
deriving DecidableEq, Repr

/-- Duel.resolve: record the winner's id.  The source only checks that
winner_id is one of the two participants; it does not check whether the duel
already has a winner. -/
def Duel.resolve (d : Duel) (winner_id : Int) : Except Err Duel :=
  if winner_id ≠ d.challenger_id ∧ winner_id ≠ d.challenged_id then
    .error .InvalidWinner
  else
    .ok { d with winner_id := some winner_id }

/-- The board (core.py, class Board).  The cell dictionary maps exactly the
in-range (row, col) pairs to an optional owner id; the embedding represents
it as a function returning none for keys absent from the dictionary and
some v for a key present with stored value v. -/
structure Board where
  nrows : Int
  ncols : Int
  grid : Int × Int → Option (Option Int)

/-- Point update of the grid dictionary (dict assignment in the source). -/
def gridSet (g : Int × Int → Option (Option Int)) (key : Int × Int)
    (v : Option Int) : Int × Int → Option (Option Int) :=
  fun q => if q = key then some v else g q

/-- The cells of an n x m board in row-major order (Nat-indexed core). -/
def cellsN (n m : Nat) : List (Int × Int) :=
  (List.range n).flatMap fun (r : Nat) =>
    (List.range m).map fun (c : Nat) => ((↑r, ↑c) : Int × Int)

/-- The cells of an nrows x ncols board in row-major order, the order of the
nested loops in Board.__init__ and Board.place_players. -/
def cellsOf (nrows ncols : Int) : List (Int × Int) :=
  cellsN nrows.toNat ncols.toNat

/-- The grid dictionary built by Board.__init__: every in-range cell mapped
to None (unowned), nothing else present. -/
def initGrid (nrows ncols : Int) : Int × Int → Option (Option Int) :=
  (cellsOf nrows ncols).foldl (fun g q => gridSet g q none) (fun _ => none)

/-- Board.__init__: requires positive dimensions, then builds the grid
dictionary with every in-range cell mapped to None (unowned). -/
def Board.init (nrows ncols : Int) : Except Err Board :=
  if nrows ≤ 0 ∨ ncols ≤ 0 then .error .InvalidDimension
  else
    .ok { nrows := nrows, ncols := ncols, grid := initGrid nrows ncols }

/-- Board.capacity. -/
def Board.capacity (b : Board) : Int := b.nrows * b.ncols

/-- Board.place_players: place players on the board in row-major order.
Fails if the players list length does not match capacity.  Each placed
player's positions become the single assigned cell and the grid entry for
that cell becomes the player's id. -/
def Board.place_players (b : Board) (players : List Player) :
    Except Err (Board × List Player) :=
  if (players.length : Int) ≠ b.capacity then .error .CardinalityMismatch
  else
    let paired := (cellsOf b.nrows b.ncols).zip players
    let grid2 := paired.foldl (fun g cp => gridSet g cp.1 (some cp.2.id)) b.grid
    let placed := paired.map fun cp => { cp.2 with positions := [cp.1] }
    .ok ({ b with grid := grid2 }, placed)

/-- Board.get_player_at: a plain dictionary read with default None, so an
absent (out-of-range) key and an in-range unowned cell both give none.  The
source raises nothing here. -/
def Board.get_player_at (b : Board) (row col : Int) : Option Int :=
  (b.grid (row, col)).join

/-- Board.get_player_position. -/
def Board.get_player_position (_ : Board) (p : Player) : Option (Int × Int) :=
  p.primary_position

/-- The game state (core.py, class Game). -/
structure Game where
  players : List Player
  board : Board
  nrows : Int
  ncols : Int
  duel_history : List Duel
  over : Bool
  winner_id : Option Int
  turn_challenger_id : Option Int

/-- Dictionary lookup in the game's player map. -/
def playersGet (players : List Player) (pid : Int) : Option Player :=
  players.find? fun p => p.id = pid

/-- In-place update of the player object with the given id (the embedding of
mutating the object found in the id-keyed dict; with unique ids it rewrites
exactly one entry). -/
def updPlayer (players : List Player) (pid : Int) (f : Player → Player) :
    List Player :=
  players.map fun p => if p.id = pid then f p else p

/-- Game.__init__: checks the player count against nrows*ncols, builds the
board (whose constructor checks dimension positivity) and places the players
on it row-major. -/
def Game.init (players : List Player) (nrows ncols : Int) : Except Err Game :=
  if (players.length : Int) ≠ nrows * ncols then .error .CardinalityMismatch
  else
    match Board.init nrows ncols with
    | .error e => .error e
    | .ok b =>
      match b.place_players players with
      | .error e => .error e
      | .ok (b2, placed) =>
        .ok { players := placed, board := b2, nrows := nrows, ncols := ncols,
              duel_history := [], over := false, winner_id := none,
              turn_challenger_id := none }

/-- Game.set_player_expertise: fails when the id is not registered, otherwise
delegates to Player.choose_expertise on the registered player object. -/
def Game.set_player_expertise (g : Game) (player_id : Int)
    (category : Category) : Except Err Unit × Game :=
  match playersGet g.players player_id with
  | none => (.error .UnknownPlayer, g)
  | some _ =>
    let players2 := updPlayer g.players player_id fun p =>
      p.choose_expertise category
    (.ok (), { g with players := players2 })

/-- Game.challenge: self-challenge check, then registration of both ids, then
the challenged player's expertise; on success a duel on the challenged
player's category is appended to duel_history and returned. -/
def Game.challenge (g : Game) (challenger_id challenged_id : Int) :
    Except Err Duel × Game :=
  if challenger_id = challenged_id then (.error .SelfChallenge, g)
  else
    match playersGet g.players challenger_id,
          playersGet g.players challenged_id with
    | some _, some challenged =>
      match challenged.expertise with
      | none => (.error .NoExpertiseSet, g)
      | some cat =>
        let duel : Duel := { challenger_id := challenger_id,
                             challenged_id := challenged_id,
                             category := cat, winner_id := none }
        (.ok duel, { g with duel_history := g.duel_history ++ [duel] })
    | _, _ => (.error .UnknownPlayer, g)

/-- Replace the first occurrence of old in the list (the embedding of the
source mutating, through the caller's reference, the duel object that is also
held by duel_history). -/
def replaceFirst (l : List Duel) (old new : Duel) : List Duel :=
  match l with
  | [] => []
  | x :: xs => if x = old then new :: xs else x :: replaceFirst xs old new

/-- The winner's id as computed by Game.resolve_duel after duel.resolve set
winner_id to w. -/
def widOf (d : Duel) (w : Int) : Int :=
  if w = d.challenger_id then d.challenger_id else d.challenged_id

/-- The loser's id as computed by Game.resolve_duel. -/
def lidOf (d : Duel) (w : Int) : Int :=
  if w = d.challenger_id then d.challenged_id else d.challenger_id

/-- Filter of the non-eliminated players, as computed twice in the source. -/
def aliveFilter (players : List Player) : List Player :=
  players.filter fun p => !p.eliminated

/-- The list of cells currently owned by the player with the given id (the
loser's positions read at the start of the transfer loop). -/
def loserPositionsOf (g : Game) (lid : Int) : List (Int × Int) :=
  ((playersGet g.players lid).map Player.positions).getD []

/-- The current expertise of the player with the given id (the live read of
the duel's challenger reference during resolution). -/
def chExpOf (g : Game) (cid : Int) : Option Category :=
  ((playersGet g.players cid).map Player.expertise).getD none

/-- The mutation block of Game.resolve_duel once winner and loser ids are
determined, in source order: each of the loser's cells is reassigned to the
winner in the grid and appended to the winner's positions, the winner's
expertise becomes the challenger's current expertise (a live read through
the duel's challenger reference), then the loser's positions are cleared
and the loser marked eliminated. -/
def Game.applyResolution (g : Game) (challenger_id wid lid : Int) : Game :=
  let loserPositions := loserPositionsOf g lid
  let grid2 := loserPositions.foldl
    (fun gr pos => gridSet gr pos (some wid)) g.board.grid
  let players1 := updPlayer g.players wid fun p =>
    { p with positions := p.positions ++ loserPositions }
  let chExp := chExpOf g challenger_id
  let players2 := updPlayer players1 wid fun p => { p with expertise := chExp }
  let players3 := updPlayer players2 lid fun p =>
    { p with positions := [], eliminated := true }
  let board2 : Board := { g.board with grid := grid2 }
  { g with players := players3, board := board2 }

/-- The final check of Game.resolve_duel: if exactly one non-eliminated
player remains and owns capacity many cells, mark the game over and record
that player as winner. -/
def Game.checkOver (g : Game) : Game :=
  match aliveFilter g.players with
  | [p] =>
    if (p.positions.length : Int) = g.board.capacity then
      { g with over := true, winner_id := some p.id }
    else g
  | _ => g

/-- Game.resolve_duel: membership of the duel in duel_history, then
duel.resolve (which may fail with InvalidWinner and which writes the winner
into the duel object held by duel_history), then the ownership transfer and
elimination, then the game-over check. -/
def Game.resolve_duel (g : Game) (duel : Duel) (winner_id : Int) :
    Except Err Unit × Game :=
  if duel ∈ g.duel_history then
    match duel.resolve winner_id with
    | .error e => (.error e, g)
    | .ok d =>
      let g1 := g.applyResolution d.challenger_id (widOf d winner_id) (lidOf d winner_id)
      let g2 : Game := { g1 with duel_history := replaceFirst g.duel_history duel d }
      (.ok (), g2.checkOver)
  else (.error .UnknownDuel, g)

/-- Game.start_turn: among the non-eliminated players, prefer a random choice
among those owning exactly one cell, else a random choice among all alive
players; returns none when no alive player remains.  random.choice picks a
uniformly random index into the chosen sequence; the embedding takes that
randomness as the parameter k, reduced modulo the pool size. -/
def Game.start_turn (g : Game) (k : Nat) : Option Int × Game :=
  let alive := aliveFilter g.players
  if alive.isEmpty then (none, { g with turn_challenger_id := none })
  else
    let ones := alive.filter fun p => p.positions.length = 1
    let pool := if ones.isEmpty then alive else ones
    match pool[k % pool.length]? with
    | some p => (some p.id, { g with turn_challenger_id := some p.id })
    | none => (none, { g with turn_challenger_id := none })

/-- A cell is one of the board's dictionary keys. -/
def inRange (b : Board) (q : Int × Int) : Prop :=
  0 ≤ q.1 ∧ q.1 < b.nrows ∧ 0 ≤ q.2 ∧ q.2 < b.ncols

instance (b : Board) (q : Int × Int) : Decidable (inRange b q) := by
  unfold inRange; infer_instance

/-- One call of any of the four public mutating operations, successful or
not (a failing call keeps the state it leaves behind). -/
inductive GameStep : Game → Game → Prop
  | setExp (g : Game) (pid : Int) (cat : Category) :
      GameStep g (g.set_player_expertise pid cat).2
  | chal (g : Game) (a b : Int) : GameStep g (g.challenge a b).2
  | duel (g : Game) (d : Duel) (w : Int) : GameStep g (g.resolve_duel d w).2
  | turn (g : Game) (k : Nat) : GameStep g (g.start_turn k).2

/-- The reachable game states: a successfully constructed game whose players
carry pairwise distinct ids (the data model's caller-side requirement),
closed under the four public operations. -/
inductive Reachable : Game → Prop
  | base (players : List Player) (nrows ncols : Int) (g : Game)
      (hids : (players.map Player.id).Nodup)
      (hinit : Game.init players nrows ncols = .ok g) : Reachable g
  | step (g g2 : Game) (hg : Reachable g) (hs : GameStep g g2) : Reachable g2

/-! ### Elementary lemmas about the grid dictionary -/

theorem gridSet_apply (g : Int × Int → Option (Option Int)) (key : Int × Int)
    (v : Option Int) (q : Int × Int) :
    gridSet g key v q = if q = key then some v else g q := rfl

theorem foldl_gridSet_not_mem {α : Type} (key : α → Int × Int)
    (val : α → Option Int) (l : List α)
    (g0 : Int × Int → Option (Option Int)) (q : Int × Int)
    (h : ∀ a ∈ l, key a ≠ q) :
    l.foldl (fun g a => gridSet g (key a) (val a)) g0 q = g0 q := by
  induction l generalizing g0 with
  | nil => rfl
  | cons a as ih =>
    simp only [List.foldl_cons]
    rw [ih _ fun b hb => h b (List.mem_cons_of_mem _ hb)]
    rw [gridSet_apply, if_neg fun heq => h a (List.mem_cons_self a as) heq.symm]

theorem foldl_gridSet_mem_const {α : Type} (key : α → Int × Int)
    (v : Option Int) (l : List α) (g0 : Int × Int → Option (Option Int))
    (q : Int × Int) (h : ∃ a ∈ l, key a = q) :
    l.foldl (fun g a => gridSet g (key a) v) g0 q = some v := by
  induction l generalizing g0 with
  | nil => simp at h
  | cons a as ih =>
    simp only [List.foldl_cons]
    by_cases hmem : ∃ b ∈ as, key b = q
    · exact ih _ hmem
    · have h1 : ∀ b ∈ as, key b ≠ q := by
        intro b hb hbq
        exact hmem ⟨b, hb, hbq⟩
      rw [foldl_gridSet_not_mem key (fun _ => v) as _ _ h1]
      obtain ⟨b, hb, hbq⟩ := h
      rcases List.mem_cons.mp hb with rfl | hb2
      · rw [gridSet_apply, if_pos hbq.symm]
      · exact absurd ⟨b, hb2, hbq⟩ hmem

theorem foldl_gridSet_nodup_mem {α : Type} (key : α → Int × Int)
    (val : α → Option Int) (l : List α)
    (g0 : Int × Int → Option (Option Int)) (a : α)
    (hnd : (l.map key).Nodup) (ha : a ∈ l) :
    l.foldl (fun g b => gridSet g (key b) (val b)) g0 (key a) = some (val a) := by
  induction l generalizing g0 with
  | nil => simp at ha
  | cons b bs ih =>
    simp only [List.map_cons, List.nodup_cons] at hnd
    simp only [List.foldl_cons]
    rcases List.mem_cons.mp ha with rfl | ha2
    · have h1 : ∀ c ∈ bs, key c ≠ key a := by
        intro c hc hceq
        exact hnd.1 (hceq ▸ List.mem_map_of_mem key hc)
      rw [foldl_gridSet_not_mem key val bs _ _ h1, gridSet_apply, if_pos rfl]
    · exact ih _ hnd.2 ha2

/-! ### The row-major cell list -/

theorem cellsN_succ (k m : Nat) :
    cellsN (k + 1) m
      = cellsN k m ++ (List.range m).map fun (c : Nat) => ((↑k, ↑c) : Int × Int) := by
  simp [cellsN, List.range_succ]

theorem length_cellsN (n m : Nat) : (cellsN n m).length = n * m := by
  induction n with
  | zero => simp [cellsN]
  | succ k ih =>
    rw [cellsN_succ, List.length_append, ih, List.length_map,
      List.length_range, Nat.succ_mul]

theorem mem_cellsN {n m : Nat} {q : Int × Int} :
    q ∈ cellsN n m ↔ 0 ≤ q.1 ∧ q.1 < n ∧ 0 ≤ q.2 ∧ q.2 < m := by
  obtain ⟨x, y⟩ := q
  simp only [cellsN, List.mem_flatMap, List.mem_map, List.mem_range]
  constructor
  · rintro ⟨r, hr, c, hc, heq⟩
    cases heq
    exact ⟨by omega, by exact_mod_cast hr, by omega, by exact_mod_cast hc⟩
  · rintro ⟨hx0, hxn, hy0, hyn⟩
    refine ⟨x.toNat, by omega, y.toNat, by omega, ?_⟩
    simp only [Prod.mk.injEq]
    constructor <;> omega

theorem nodup_cellsN (n m : Nat) : (cellsN n m).Nodup := by
  rw [cellsN, List.nodup_flatMap]
  constructor
  · intro r _
    refine List.Nodup.map ?_ (List.nodup_range m)
    intro a b hab
    have := congrArg Prod.snd hab
    simpa using this
  · refine (List.nodup_range n).imp ?_
    intro a b hab q hqa hqb
    simp only [List.mem_map, List.mem_range] at hqa hqb
    obtain ⟨c1, _, hc1⟩ := hqa
    obtain ⟨c2, _, hc2⟩ := hqb
    apply hab
    have : ((a : Int), (c1 : Int)).1 = ((b : Int), (c2 : Int)).1 := by
      rw [hc1, ← hc2]
    simpa using this

theorem getElem?_cellsN {n m i : Nat} (h : i < n * m) :
    (cellsN n m)[i]? = some (((i / m : Nat) : Int), ((i % m : Nat) : Int)) := by
  induction n with
  | zero => omega
  | succ k ih =>
    have hsm : (k + 1) * m = k * m + m := Nat.succ_mul k m
    rw [cellsN_succ]
    by_cases hik : i < k * m
    · rw [List.getElem?_append_left (by rw [length_cellsN]; exact hik)]
      exact ih hik
    · have hm : 0 < m := by
        rcases Nat.eq_zero_or_pos m with rfl | hm0
        · omega
        · exact hm0
      have hge : (cellsN k m).length ≤ i := by rw [length_cellsN]; omega
      have hj : i - k * m < m := by omega
      have hieq : i = m * k + (i - k * m) := by
        have hc := Nat.mul_comm k m
        omega
      have hdiv : i / m = k := by
        rw [hieq, Nat.mul_add_div hm, Nat.div_eq_of_lt hj, Nat.add_zero]
      have hmod : i % m = i - k * m := by
        conv_lhs => rw [hieq]
        rw [Nat.mul_add_mod, Nat.mod_eq_of_lt hj]
      rw [List.getElem?_append_right hge, length_cellsN, List.getElem?_map,
        List.getElem?_range hj, hdiv, hmod]
      rfl

/-! ### Lemmas about the player list -/

theorem playersGet_eq_some {l : List Player} {pid : Int} {p : Player}
    (h : playersGet l pid = some p) : p ∈ l ∧ p.id = pid :=
  ⟨List.mem_of_find?_eq_some h, by simpa using List.find?_some h⟩

theorem playersGet_of_mem {l : List Player} {pid : Int}
    (h : ∃ p ∈ l, p.id = pid) :
    ∃ p, playersGet l pid = some p ∧ p ∈ l ∧ p.id = pid := by
  have hs : (l.find? fun p => p.id = pid).isSome := by
    rw [List.find?_isSome]
    obtain ⟨p, hp, hid⟩ := h
    exact ⟨p, hp, by simpa using hid⟩
  obtain ⟨p, hp⟩ := Option.isSome_iff_exists.mp hs
  exact ⟨p, hp, playersGet_eq_some hp⟩

theorem mem_updPlayer_iff {l : List Player} {pid : Int} {f : Player → Player}
    {x : Player} :
    x ∈ updPlayer l pid f ↔ ∃ p ∈ l, x = if p.id = pid then f p else p := by
  simp only [updPlayer, List.mem_map, eq_comm]

theorem playersGet_updPlayer (l : List Player) (pid x : Int)
    (f : Player → Player) (hf : ∀ p, (f p).id = p.id) :
    playersGet (updPlayer l pid f) x =
      (playersGet l x).map fun p => if p.id = pid then f p else p := by
  unfold playersGet updPlayer
  rw [List.find?_map]
  have hpred : ((fun p => decide (p.id = x)) ∘ fun p => if p.id = pid then f p else p)
      = fun p : Player => decide (p.id = x) := by
    funext p
    by_cases h : p.id = pid <;> simp [h, hf]
  rw [hpred]

theorem map_id_updPlayer (l : List Player) (pid : Int) (f : Player → Player)
    (hf : ∀ p, (f p).id = p.id) :
    (updPlayer l pid f).map Player.id = l.map Player.id := by
  unfold updPlayer
  rw [List.map_map]
  congr 1
  funext p
  by_cases h : p.id = pid <;> simp [h, hf]

theorem mem_aliveFilter {l : List Player} {p : Player} :
    p ∈ aliveFilter l ↔ p ∈ l ∧ p.eliminated = false := by
  simp [aliveFilter, List.mem_filter]

/-! ### Decomposition of the resolution step -/

/-- The per-player effect of the transfer and elimination block of
Game.resolve_duel: the winner gains the loser's cells and the challenger's
current expertise, the loser is cleared and eliminated, everyone else is
untouched. -/
def resStep (wid lid : Int) (lp : List (Int × Int)) (ce : Option Category)
    (p : Player) : Player :=
  if p.id = wid then { p with positions := p.positions ++ lp, expertise := ce }
  else if p.id = lid then { p with positions := [], eliminated := true }
  else p

theorem resStep_id (wid lid : Int) (lp : List (Int × Int))
    (ce : Option Category) (p : Player) : (resStep wid lid lp ce p).id = p.id := by
  unfold resStep
  split
  · rfl
  · split <;> rfl

theorem applyResolution_players (g : Game) (cid wid lid : Int)
    (hwl : wid ≠ lid) :
    (g.applyResolution cid wid lid).players
      = g.players.map (resStep wid lid (loserPositionsOf g lid) (chExpOf g cid)) := by
  unfold Game.applyResolution updPlayer
  simp only [List.map_map]
  congr 1
  funext p
  have hlw : lid ≠ wid := Ne.symm hwl
  by_cases h1 : p.id = wid
  · have h2 : ¬ p.id = lid := fun h => hwl (h1.symm.trans h)
    simp [resStep, h1, h2, hwl, hlw]
  · by_cases h2 : p.id = lid <;> simp [resStep, h1, h2, hwl, hlw]

theorem applyResolution_grid (g : Game) (cid wid lid : Int) (q : Int × Int) :
    (g.applyResolution cid wid lid).board.grid q
      = if q ∈ loserPositionsOf g lid then some (some wid)
        else g.board.grid q := by
  unfold Game.applyResolution
  by_cases h : q ∈ loserPositionsOf g lid
  · rw [if_pos h]
    exact foldl_gridSet_mem_const (fun pos => pos) (some wid) _ _ _ ⟨q, h, rfl⟩
  · rw [if_neg h]
    exact foldl_gridSet_not_mem (fun pos => pos) (fun _ => some wid) _ _ _
      fun a ha haq => h (haq ▸ ha)

theorem applyResolution_board_nrows (g : Game) (cid wid lid : Int) :
    (g.applyResolution cid wid lid).board.nrows = g.board.nrows := rfl

theorem applyResolution_board_ncols (g : Game) (cid wid lid : Int) :
    (g.applyResolution cid wid lid).board.ncols = g.board.ncols := rfl

theorem applyResolution_duel_history (g : Game) (cid wid lid : Int) :
    (g.applyResolution cid wid lid).duel_history = g.duel_history := rfl

theorem applyResolution_over (g : Game) (cid wid lid : Int) :
    (g.applyResolution cid wid lid).over = g.over := rfl

theorem applyResolution_winner_id (g : Game) (cid wid lid : Int) :
    (g.applyResolution cid wid lid).winner_id = g.winner_id := rfl

theorem checkOver_players (g : Game) : g.checkOver.players = g.players := by
  unfold Game.checkOver
  split
  · split <;> rfl
  · rfl

theorem checkOver_board (g : Game) : g.checkOver.board = g.board := by
  unfold Game.checkOver
  split
  · split <;> rfl
  · rfl

theorem checkOver_duel_history (g : Game) :
    g.checkOver.duel_history = g.duel_history := by
  unfold Game.checkOver
  split
  · split <;> rfl
  · rfl

theorem checkOver_of_single {g : Game} {p : Player}
    (h : aliveFilter g.players = [p])
    (hc : (p.positions.length : Int) = g.board.capacity) :
    g.checkOver = { g with over := true, winner_id := some p.id } := by
  unfold Game.checkOver
  rw [h]
  simp [hc]

theorem checkOver_of_not_single {g : Game}
    (h : ∀ p, aliveFilter g.players = [p] →
      (p.positions.length : Int) ≠ g.board.capacity) :
    g.checkOver = g := by
  unfold Game.checkOver
  split
  · rename_i p heq
    rw [if_neg (h p heq)]
  · rfl

theorem checkOver_over_monotone (g : Game) (h : g.over = true) :
    g.checkOver.over = true := by
  unfold Game.checkOver
  split
  · split <;> simp [h]
  · simp [h]

/-! ### The constructed game -/

theorem mem_cellsOf {nrows ncols : Int} {q : Int × Int} :
    q ∈ cellsOf nrows ncols ↔
      0 ≤ q.1 ∧ q.1 < nrows ∧ 0 ≤ q.2 ∧ q.2 < ncols := by
  rw [cellsOf, mem_cellsN]
  omega

theorem nodup_cellsOf (nrows ncols : Int) : (cellsOf nrows ncols).Nodup :=
  nodup_cellsN nrows.toNat ncols.toNat

theorem length_cellsOf (nrows ncols : Int) :
    (cellsOf nrows ncols).length = nrows.toNat * ncols.toNat :=
  length_cellsN nrows.toNat ncols.toNat

/-- The placed player list produced by a successful construction. -/
def placedPlayers (players : List Player) (nrows ncols : Int) : List Player :=
  ((cellsOf nrows ncols).zip players).map fun cp =>
    { cp.2 with positions := [cp.1] }

/-- The grid produced by a successful construction. -/
def placeGrid (players : List Player) (nrows ncols : Int) :
    Int × Int → Option (Option Int) :=
  ((cellsOf nrows ncols).zip players).foldl
    (fun g cp => gridSet g cp.1 (some cp.2.id)) (initGrid nrows ncols)

theorem init_eq_of {players : List Player} {nrows ncols : Int}
    (hlen : (players.length : Int) = nrows * ncols)
    (h2 : 0 < nrows) (h3 : 0 < ncols) :
    Game.init players nrows ncols = .ok
      { players := placedPlayers players nrows ncols,
        board := { nrows := nrows, ncols := ncols,
                   grid := placeGrid players nrows ncols },
        nrows := nrows, ncols := ncols, duel_history := [], over := false,
        winner_id := none, turn_challenger_id := none } := by
  have hne : ¬ ((players.length : Int) ≠ nrows * ncols) := by simp [hlen]
  have hd : ¬ (nrows ≤ 0 ∨ ncols ≤ 0) := by omega
  unfold Game.init Board.init Board.place_players Board.capacity
  rw [if_neg hne, if_neg hd]
  simp only [hne, placedPlayers, placeGrid, ite_false, if_neg]

theorem init_ok_conditions {players : List Player} {nrows ncols : Int}
    {g : Game} (h : Game.init players nrows ncols = .ok g) :
    (players.length : Int) = nrows * ncols ∧ 0 < nrows ∧ 0 < ncols := by
  unfold Game.init at h
  split at h
  · simp at h
  · rename_i hlen
    have hl : (players.length : Int) = nrows * ncols := not_ne_iff.mp hlen
    unfold Board.init at h
    split at h
    · simp at h
    · rename_i b hdim
      split at hdim
      · simp at hdim
      · rename_i hcond
        rw [not_or] at hcond
        exact ⟨hl, by omega, by omega⟩

theorem init_ok_elim {players : List Player} {nrows ncols : Int} {g : Game}
    (h : Game.init players nrows ncols = .ok g) :
    g = { players := placedPlayers players nrows ncols,
          board := { nrows := nrows, ncols := ncols,
                     grid := placeGrid players nrows ncols },
          nrows := nrows, ncols := ncols, duel_history := [], over := false,
          winner_id := none, turn_challenger_id := none } := by
  obtain ⟨hl, h2, h3⟩ := init_ok_conditions h
  rw [init_eq_of hl h2 h3] at h
  injection h with h4
  exact h4.symm

theorem initGrid_apply (nrows ncols : Int) (q : Int × Int) :
    initGrid nrows ncols q
      = if q ∈ cellsOf nrows ncols then some none else none := by
  unfold initGrid
  by_cases h : q ∈ cellsOf nrows ncols
  · rw [if_pos h]
    exact foldl_gridSet_mem_const (fun c => c) none _ _ _ ⟨q, h, rfl⟩
  · rw [if_neg h]
    exact foldl_gridSet_not_mem (fun c => c) (fun _ => none) _ _ _
      fun a ha haq => h (haq ▸ ha)

theorem zip_fst_inj {α β : Type} {l1 : List α} {l2 : List β}
    (hnd : l1.Nodup) {cp1 cp2 : α × β} (h1 : cp1 ∈ l1.zip l2)
    (h2 : cp2 ∈ l1.zip l2) (hfst : cp1.1 = cp2.1) : cp1 = cp2 := by
  obtain ⟨i, hi, hig⟩ := List.mem_iff_getElem.mp h1
  obtain ⟨j, hj, hjg⟩ := List.mem_iff_getElem.mp h2
  rw [List.length_zip] at hi hj
  have hi1 : i < l1.length := by omega
  have hi2 : i < l2.length := by omega
  have hj1 : j < l1.length := by omega
  have hj2 : j < l2.length := by omega
  have hiz : (l1.zip l2)[i] = (l1.get ⟨i, hi1⟩, l2.get ⟨i, hi2⟩) :=
    List.getElem_zip ..
  have hjz : (l1.zip l2)[j] = (l1.get ⟨j, hj1⟩, l2.get ⟨j, hj2⟩) :=
    List.getElem_zip ..
  rw [hiz] at hig
  rw [hjz] at hjg
  have hfs : l1.get ⟨i, hi1⟩ = l1.get ⟨j, hj1⟩ := by
    have e1 := congrArg Prod.fst hig
    have e2 := congrArg Prod.fst hjg
    simp only at e1 e2
    rw [e1, e2, hfst]
  have hij : i = j := hnd.getElem_inj_iff.mp hfs
  subst hij
  rw [← hig, ← hjg]

/-- The inductive invariant carried along every reachable state. -/
structure Inv (g : Game) : Prop where
  nodup_ids : (g.players.map Player.id).Nodup
  pos_nodup : ∀ p ∈ g.players, p.positions.Nodup
  cover : ∀ q : Int × Int,
    inRange g.board q ↔ ∃ p ∈ g.players, q ∈ p.positions
  disjoint : ∀ p1 ∈ g.players, ∀ p2 ∈ g.players, ∀ q : Int × Int,
    q ∈ p1.positions → q ∈ p2.positions → p1 = p2
  grid_pos : ∀ p ∈ g.players, ∀ q ∈ p.positions,
    g.board.grid q = some (some p.id)
  grid_dom : ∀ q : Int × Int, ¬ inRange g.board q → g.board.grid q = none
  hist_ok : ∀ d ∈ g.duel_history, d.challenger_id ≠ d.challenged_id ∧
    (∃ p ∈ g.players, p.id = d.challenger_id) ∧
    (∃ p ∈ g.players, p.id = d.challenged_id)
  alive_nonempty : ∀ p ∈ g.players, p.eliminated = false → p.positions ≠ []
  dims_pos : 0 < g.board.nrows ∧ 0 < g.board.ncols

/-- Transport of the invariant between games with the same players, board
and history (the over, winner and turn fields do not enter it). -/
theorem inv_transport {g g2 : Game} (h : Inv g) (hp : g2.players = g.players)
    (hb : g2.board = g.board) (hh : g2.duel_history = g.duel_history) :
    Inv g2 := by
  constructor
  · rw [hp]; exact h.nodup_ids
  · rw [hp]; exact h.pos_nodup
  · rw [hp, hb]; exact h.cover
  · rw [hp]; exact h.disjoint
  · rw [hp, hb]; exact h.grid_pos
  · rw [hb]; exact h.grid_dom
  · rw [hh, hp]; exact h.hist_ok
  · rw [hp]; exact h.alive_nonempty
  · rw [hb]; exact h.dims_pos

theorem nodup_id_eq {l : List Player} (hnd : (l.map Player.id).Nodup)
    {p q : Player} (hp : p ∈ l) (hq : q ∈ l) (hid : p.id = q.id) : p = q :=
  List.inj_on_of_nodup_map hnd hp hq hid

/-- The invariant holds for every successfully constructed game with
pairwise distinct player ids. -/
theorem inv_init {players : List Player} {nrows ncols : Int} {g : Game}
    (hids : (players.map Player.id).Nodup)
    (h : Game.init players nrows ncols = .ok g) : Inv g := by
  obtain ⟨hl, h2, h3⟩ := init_ok_conditions h
  have hg := init_ok_elim h
  subst hg
  have hndc : (cellsOf nrows ncols).Nodup := nodup_cellsOf nrows ncols
  have hcast : ((nrows.toNat * ncols.toNat : Nat) : Int) = nrows * ncols := by
    push_cast
    rw [Int.toNat_of_nonneg (by omega), Int.toNat_of_nonneg (by omega)]
  have hlenN : (cellsOf nrows ncols).length = players.length := by
    rw [length_cellsOf]
    exact_mod_cast (hl.trans hcast.symm).symm
  have hfst : ((cellsOf nrows ncols).zip players).map Prod.fst
      = cellsOf nrows ncols :=
    List.map_fst_zip _ _ (le_of_eq hlenN)
  have hsnd : ((cellsOf nrows ncols).zip players).map Prod.snd = players :=
    List.map_snd_zip _ _ (ge_of_eq hlenN)
  have hmemp : ∀ x : Player, x ∈ placedPlayers players nrows ncols ↔
      ∃ cp ∈ (cellsOf nrows ncols).zip players,
        x = { cp.2 with positions := [cp.1] } := by
    intro x
    simp [placedPlayers, List.mem_map, eq_comm]
  have hcell_ex : ∀ q ∈ cellsOf nrows ncols,
      ∃ cp ∈ (cellsOf nrows ncols).zip players, cp.1 = q := by
    intro q hq
    rw [← hfst] at hq
    obtain ⟨cp, hcp, hcpq⟩ := List.mem_map.mp hq
    exact ⟨cp, hcp, hcpq⟩
  have hndz : (((cellsOf nrows ncols).zip players).map Prod.fst).Nodup := by
    rw [hfst]
    exact hndc
  have hgrid_mem : ∀ cp ∈ (cellsOf nrows ncols).zip players,
      placeGrid players nrows ncols cp.1 = some (some cp.2.id) := by
    intro cp hcp
    unfold placeGrid
    exact foldl_gridSet_nodup_mem Prod.fst
      (fun cp : (Int × Int) × Player => some cp.2.id) _ _ cp hndz hcp
  have hgrid_out : ∀ q : Int × Int, q ∉ cellsOf nrows ncols →
      placeGrid players nrows ncols q = none := by
    intro q hq
    have hkeys : ∀ cp ∈ (cellsOf nrows ncols).zip players, cp.1 ≠ q := by
      rintro ⟨a, b⟩ hcp rfl
      exact hq (List.of_mem_zip hcp).1
    have h1 := foldl_gridSet_not_mem (α := (Int × Int) × Player) Prod.fst
      (fun cp => some cp.2.id) ((cellsOf nrows ncols).zip players)
      (initGrid nrows ncols) q hkeys
    exact h1.trans (by rw [initGrid_apply, if_neg hq])
  have hrange : ∀ q : Int × Int,
      inRange { nrows := nrows, ncols := ncols,
                grid := placeGrid players nrows ncols : Board } q ↔
        q ∈ cellsOf nrows ncols := by
    intro q
    rw [mem_cellsOf]
    exact Iff.rfl
  constructor
  · show ((placedPlayers players nrows ncols).map Player.id).Nodup
    unfold placedPlayers
    rw [List.map_map]
    have : (Player.id ∘ fun cp : (Int × Int) × Player =>
        { cp.2 with positions := [cp.1] }) = Player.id ∘ Prod.snd := rfl
    rw [this, ← List.map_map, hsnd]
    exact hids
  · intro p hp
    obtain ⟨cp, _, rfl⟩ := (hmemp p).mp hp
    exact List.nodup_singleton _
  · intro q
    rw [hrange q]
    constructor
    · intro hq
      obtain ⟨cp, hcp, hcpq⟩ := hcell_ex q hq
      refine ⟨{ cp.2 with positions := [cp.1] }, (hmemp _).mpr ⟨cp, hcp, rfl⟩, ?_⟩
      rw [hcpq]
      exact List.mem_singleton.mpr rfl
    · rintro ⟨p, hp, hqp⟩
      obtain ⟨cp, hcp, rfl⟩ := (hmemp p).mp hp
      have : q = cp.1 := List.mem_singleton.mp hqp
      rw [this, ← hfst]
      exact List.mem_map_of_mem Prod.fst hcp
  · intro p1 hp1 p2 hp2 q hq1 hq2
    obtain ⟨cp1, hcp1, rfl⟩ := (hmemp p1).mp hp1
    obtain ⟨cp2, hcp2, rfl⟩ := (hmemp p2).mp hp2
    have e1 : q = cp1.1 := List.mem_singleton.mp hq1
    have e2 : q = cp2.1 := List.mem_singleton.mp hq2
    rw [zip_fst_inj hndc hcp1 hcp2 (e1 ▸ e2)]
  · intro p hp q hq
    obtain ⟨cp, hcp, rfl⟩ := (hmemp p).mp hp
    have : q = cp.1 := List.mem_singleton.mp hq
    rw [this]
    exact hgrid_mem cp hcp
  · intro q hq
    rw [hrange q] at hq
    exact hgrid_out q hq
  · intro d hd
    simp at hd
  · intro p hp _
    obtain ⟨cp, _, rfl⟩ := (hmemp p).mp hp
    simp
  · exact ⟨h2, h3⟩

/-! ### Preservation of the invariant -/

/-- A per-player rewrite that keeps id, positions and elimination (such as
setting expertise) keeps the invariant. -/
theorem inv_players_map {g : Game} (h : Inv g) (step : Player → Player)
    (hid : ∀ p, (step p).id = p.id)
    (hpos : ∀ p, (step p).positions = p.positions)
    (hel : ∀ p, (step p).eliminated = p.eliminated) :
    Inv { g with players := g.players.map step } := by
  constructor
  · show ((g.players.map step).map Player.id).Nodup
    rw [List.map_map]
    have hc : Player.id ∘ step = Player.id := funext hid
    rw [hc]
    exact h.nodup_ids
  · intro p hp
    obtain ⟨p0, hp0, rfl⟩ := List.mem_map.mp hp
    rw [hpos]
    exact h.pos_nodup p0 hp0
  · intro q
    show inRange g.board q ↔ _
    rw [h.cover q]
    constructor
    · rintro ⟨p, hp, hq⟩
      exact ⟨step p, List.mem_map_of_mem step hp, by rw [hpos]; exact hq⟩
    · rintro ⟨p, hp, hq⟩
      obtain ⟨p0, hp0, rfl⟩ := List.mem_map.mp hp
      rw [hpos] at hq
      exact ⟨p0, hp0, hq⟩
  · intro p1 hp1 p2 hp2 q hq1 hq2
    obtain ⟨q1, hq1m, rfl⟩ := List.mem_map.mp hp1
    obtain ⟨q2, hq2m, rfl⟩ := List.mem_map.mp hp2
    rw [hpos] at hq1 hq2
    rw [h.disjoint q1 hq1m q2 hq2m q hq1 hq2]
  · intro p hp q hq
    obtain ⟨p0, hp0, rfl⟩ := List.mem_map.mp hp
    rw [hpos] at hq
    rw [hid]
    exact h.grid_pos p0 hp0 q hq
  · exact h.grid_dom
  · intro d hd
    obtain ⟨hne, ⟨pa, hpa, hpaid⟩, ⟨pb, hpb, hpbid⟩⟩ := h.hist_ok d hd
    exact ⟨hne, ⟨step pa, List.mem_map_of_mem step hpa, by rw [hid]; exact hpaid⟩,
      ⟨step pb, List.mem_map_of_mem step hpb, by rw [hid]; exact hpbid⟩⟩
  · intro p hp hel2
    obtain ⟨p0, hp0, rfl⟩ := List.mem_map.mp hp
    rw [hel] at hel2
    rw [hpos]
    exact h.alive_nonempty p0 hp0 hel2
  · exact h.dims_pos

theorem inv_set_player_expertise (g : Game) (pid : Int) (cat : Category)
    (h : Inv g) : Inv (g.set_player_expertise pid cat).2 := by
  unfold Game.set_player_expertise
  split
  · exact h
  · exact inv_players_map h
      (fun p => if p.id = pid then p.choose_expertise cat else p)
      (by intro p; by_cases hp : p.id = pid <;> simp [hp, Player.choose_expertise])
      (by intro p; by_cases hp : p.id = pid <;> simp [hp, Player.choose_expertise])
      (by intro p; by_cases hp : p.id = pid <;> simp [hp, Player.choose_expertise])

theorem inv_challenge (g : Game) (a b : Int) (h : Inv g) :
    Inv (g.challenge a b).2 := by
  unfold Game.challenge
  split
  · exact h
  · rename_i hne
    split
    · rename_i challenger challenged hc ht
      split
      · exact h
      · rename_i cat hcat
        constructor
        · exact h.nodup_ids
        · exact h.pos_nodup
        · exact h.cover
        · exact h.disjoint
        · exact h.grid_pos
        · exact h.grid_dom
        · intro d hd
          rcases List.mem_append.mp hd with h1 | h1
          · exact h.hist_ok d h1
          · rw [List.mem_singleton] at h1
            subst h1
            obtain ⟨hcm, hcid⟩ := playersGet_eq_some hc
            obtain ⟨htm, htid⟩ := playersGet_eq_some ht
            exact ⟨hne, ⟨challenger, hcm, hcid⟩, ⟨challenged, htm, htid⟩⟩
        · exact h.alive_nonempty
        · exact h.dims_pos
    · exact h

/-! ### Helpers for duel resolution -/

theorem loserPositionsOf_eq {g : Game} {lid : Int} {pl : Player}
    (h : playersGet g.players lid = some pl) :
    loserPositionsOf g lid = pl.positions := by
  unfold loserPositionsOf
  rw [h]
  rfl

theorem chExpOf_eq {g : Game} {cid : Int} {pc : Player}
    (h : playersGet g.players cid = some pc) : chExpOf g cid = pc.expertise := by
  unfold chExpOf
  rw [h]
  rfl

theorem mem_replaceFirst {l : List Duel} {old nw x : Duel}
    (h : x ∈ replaceFirst l old nw) : x ∈ l ∨ x = nw := by
  induction l with
  | nil => simp [replaceFirst] at h
  | cons y ys ih =>
    rw [replaceFirst] at h
    split at h
    · rcases List.mem_cons.mp h with h2 | h2
      · right; exact h2
      · left; exact List.mem_cons_of_mem _ h2
    · rcases List.mem_cons.mp h with h2 | h2
      · left
        rw [h2]
        exact List.mem_cons_self _ _
      · rcases ih h2 with h1 | h1
        · left; exact List.mem_cons_of_mem _ h1
        · right; exact h1

theorem duel_resolve_ok {d0 : Duel} {w : Int} {d : Duel}
    (h : d0.resolve w = .ok d) :
    (w = d0.challenger_id ∨ w = d0.challenged_id)
      ∧ d = { d0 with winner_id := some w } := by
  unfold Duel.resolve at h
  split at h
  · simp at h
  · rename_i hc
    rw [not_and_or, not_not, not_not] at hc
    injection h with h2
    exact ⟨hc, h2.symm⟩

theorem widOf_or (d : Duel) (w : Int) :
    widOf d w = d.challenger_id ∨ widOf d w = d.challenged_id := by
  unfold widOf
  split
  · left; rfl
  · right; rfl

theorem lidOf_or (d : Duel) (w : Int) :
    lidOf d w = d.challenger_id ∨ lidOf d w = d.challenged_id := by
  unfold lidOf
  split
  · right; rfl
  · left; rfl

theorem widOf_ne_lidOf (d : Duel) (w : Int)
    (h : d.challenger_id ≠ d.challenged_id) : widOf d w ≠ lidOf d w := by
  unfold widOf lidOf
  split
  · exact h
  · exact Ne.symm h

theorem resStep_of_wid {wid lid : Int} {lp : List (Int × Int)}
    {ce : Option Category} {p : Player} (hp : p.id = wid) :
    resStep wid lid lp ce p
      = { p with positions := p.positions ++ lp, expertise := ce } := by
  unfold resStep
  rw [if_pos hp]

theorem resStep_of_lid {wid lid : Int} {lp : List (Int × Int)}
    {ce : Option Category} {p : Player} (hwl : wid ≠ lid) (hp : p.id = lid) :
    resStep wid lid lp ce p
      = { p with positions := [], eliminated := true } := by
  unfold resStep
  rw [if_neg (fun h => hwl (h.symm.trans hp)), if_pos hp]

theorem resStep_of_other {wid lid : Int} {lp : List (Int × Int)}
    {ce : Option Category} {p : Player} (h1 : p.id ≠ wid) (h2 : p.id ≠ lid) :
    resStep wid lid lp ce p = p := by
  unfold resStep
  rw [if_neg h1, if_neg h2]

/-- Preservation of the invariant by the transfer and elimination block,
for a duel between two distinct registered players. -/
theorem inv_applyResolution (g : Game) (cid wid lid : Int) (h : Inv g)
    (hwl : wid ≠ lid)
    (hwreg : ∃ p ∈ g.players, p.id = wid)
    (hlreg : ∃ p ∈ g.players, p.id = lid) :
    Inv (g.applyResolution cid wid lid) := by
  obtain ⟨pw, hpwget, hpwmem, hpwid⟩ := playersGet_of_mem hwreg
  obtain ⟨pl, hplget, hplmem, hplid⟩ := playersGet_of_mem hlreg
  have hlppos : loserPositionsOf g lid = pl.positions := loserPositionsOf_eq hplget
  have hplayers : (g.applyResolution cid wid lid).players
      = g.players.map (resStep wid lid (loserPositionsOf g lid) (chExpOf g cid)) :=
    applyResolution_players g cid wid lid hwl
  have hgrid : ∀ q : Int × Int, (g.applyResolution cid wid lid).board.grid q
      = if q ∈ loserPositionsOf g lid then some (some wid)
        else g.board.grid q := applyResolution_grid g cid wid lid
  set step := resStep wid lid (loserPositionsOf g lid) (chExpOf g cid)
    with hstepdef
  have huniq : ∀ p ∈ g.players, ∀ x ∈ g.players, p.id = x.id → p = x :=
    fun p hp x hx hid => nodup_id_eq h.nodup_ids hp hx hid
  have hwuniq : ∀ p ∈ g.players, p.id = wid → p = pw :=
    fun p hp hid => huniq p hp pw hpwmem (hid.trans hpwid.symm)
  have hluniq : ∀ p ∈ g.players, p.id = lid → p = pl :=
    fun p hp hid => huniq p hp pl hplmem (hid.trans hplid.symm)
  have hpos_step : ∀ p ∈ g.players, ∀ q : Int × Int,
      q ∈ (step p).positions ↔
        (p.id = wid ∧ (q ∈ p.positions ∨ q ∈ pl.positions))
          ∨ (p.id ≠ wid ∧ p.id ≠ lid ∧ q ∈ p.positions) := by
    intro p _ q
    by_cases h1 : p.id = wid
    · rw [hstepdef, resStep_of_wid h1]
      have h2 : p.id ≠ lid := fun he => hwl (h1.symm.trans he)
      simp [h1, h2, List.mem_append, hlppos]
    · by_cases h2 : p.id = lid
      · rw [hstepdef, resStep_of_lid hwl h2]
        simp [h1, h2, Ne.symm hwl]
      · rw [hstepdef, resStep_of_other h1 h2]
        simp [h1, h2]
  have hrange : ∀ q : Int × Int,
      inRange (g.applyResolution cid wid lid).board q ↔ inRange g.board q := by
    intro q
    unfold inRange
    rw [applyResolution_board_nrows, applyResolution_board_ncols]
  have hlp_inrange : ∀ q ∈ pl.positions, inRange g.board q := by
    intro q hq
    exact (h.cover q).mpr ⟨pl, hplmem, hq⟩
  constructor
  · rw [hplayers, List.map_map]
    have hc : Player.id ∘ step = Player.id :=
      funext fun p =>
        resStep_id wid lid (loserPositionsOf g lid) (chExpOf g cid) p
    rw [hc]
    exact h.nodup_ids
  · intro p hp
    rw [hplayers] at hp
    obtain ⟨p0, hp0, rfl⟩ := List.mem_map.mp hp
    by_cases h1 : p0.id = wid
    · rw [hstepdef, resStep_of_wid h1]
      have hn2 : (loserPositionsOf g lid).Nodup := by
        rw [hlppos]
        exact h.pos_nodup pl hplmem
      refine List.Nodup.append (h.pos_nodup p0 hp0) hn2 ?_
      intro q hq1 hq2
      rw [hlppos] at hq2
      have he : p0 = pl := h.disjoint p0 hp0 pl hplmem q hq1 hq2
      exact absurd (h1.symm.trans ((congrArg Player.id he).trans hplid)) hwl
    · by_cases h2 : p0.id = lid
      · rw [hstepdef, resStep_of_lid hwl h2]
        exact List.nodup_nil
      · rw [hstepdef, resStep_of_other h1 h2]
        exact h.pos_nodup p0 hp0
  · intro q
    rw [hrange q, h.cover q, hplayers]
    constructor
    · rintro ⟨p, hp, hqp⟩
      by_cases h2 : p.id = lid
      · have he : p = pl := hluniq p hp h2
        subst he
        refine ⟨step pw, List.mem_map_of_mem step hpwmem, ?_⟩
        exact (hpos_step pw hpwmem q).mpr (Or.inl ⟨hpwid, Or.inr hqp⟩)
      · by_cases h1 : p.id = wid
        · exact ⟨step p, List.mem_map_of_mem step hp,
            (hpos_step p hp q).mpr (Or.inl ⟨h1, Or.inl hqp⟩)⟩
        · exact ⟨step p, List.mem_map_of_mem step hp,
            (hpos_step p hp q).mpr (Or.inr ⟨h1, h2, hqp⟩)⟩
    · rintro ⟨p, hp, hqp⟩
      obtain ⟨p0, hp0, rfl⟩ := List.mem_map.mp hp
      rcases (hpos_step p0 hp0 q).mp hqp with ⟨_, hq2⟩ | ⟨_, _, hq2⟩
      · rcases hq2 with hq3 | hq3
        · exact ⟨p0, hp0, hq3⟩
        · exact ⟨pl, hplmem, hq3⟩
      · exact ⟨p0, hp0, hq2⟩
  · intro p1 hp1 p2 hp2 q hq1 hq2
    rw [hplayers] at hp1 hp2
    obtain ⟨q1, hq1m, rfl⟩ := List.mem_map.mp hp1
    obtain ⟨q2, hq2m, rfl⟩ := List.mem_map.mp hp2
    suffices he : q1 = q2 by rw [he]
    rcases (hpos_step q1 hq1m q).mp hq1 with ⟨ha1, haq⟩ | ⟨ha1, ha2, haq⟩ <;>
      rcases (hpos_step q2 hq2m q).mp hq2 with ⟨hb1, hbq⟩ | ⟨hb1, hb2, hbq⟩
    · exact (hwuniq q1 hq1m ha1).trans (hwuniq q2 hq2m hb1).symm
    · rcases haq with haq2 | haq2
      · exact h.disjoint q1 hq1m q2 hq2m q haq2 hbq
      · exact absurd ((h.disjoint pl hplmem q2 hq2m q haq2 hbq ▸ hplid : q2.id = lid)) hb2
    · rcases hbq with hbq2 | hbq2
      · exact h.disjoint q1 hq1m q2 hq2m q haq hbq2
      · exact absurd ((h.disjoint pl hplmem q1 hq1m q hbq2 haq ▸ hplid : q1.id = lid)) ha2
    · exact h.disjoint q1 hq1m q2 hq2m q haq hbq
  · intro p hp q hq
    rw [hplayers] at hp
    obtain ⟨p0, hp0, rfl⟩ := List.mem_map.mp hp
    rw [hgrid q, hstepdef, resStep_id]
    rcases (hpos_step p0 hp0 q).mp hq with ⟨h1, hq2⟩ | ⟨h1, h2, hq2⟩
    · rw [h1]
      rcases hq2 with hq3 | hq3
      · by_cases hql : q ∈ loserPositionsOf g lid
        · rw [if_pos hql]
        · rw [if_neg hql, h.grid_pos p0 hp0 q hq3, h1]
      · rw [if_pos (by rw [hlppos]; exact hq3)]
    · have hql : q ∉ loserPositionsOf g lid := by
        rw [hlppos]
        intro hql2
        have he : p0 = pl := h.disjoint p0 hp0 pl hplmem q hq2 hql2
        exact h2 ((congrArg Player.id he).trans hplid)
      rw [if_neg hql]
      exact h.grid_pos p0 hp0 q hq2
  · intro q hq
    rw [hrange q] at hq
    have hql : q ∉ loserPositionsOf g lid := by
      rw [hlppos]
      intro hql2
      exact hq (hlp_inrange q hql2)
    rw [hgrid q, if_neg hql]
    exact h.grid_dom q hq
  · intro d hd
    rw [applyResolution_duel_history] at hd
    obtain ⟨hne, ⟨pa, hpa, hpaid⟩, ⟨pb, hpb, hpbid⟩⟩ := h.hist_ok d hd
    rw [hplayers]
    exact ⟨hne,
      ⟨step pa, List.mem_map_of_mem step hpa, (resStep_id .. ).trans hpaid⟩,
      ⟨step pb, List.mem_map_of_mem step hpb, (resStep_id .. ).trans hpbid⟩⟩
  · intro p hp he
    rw [hplayers] at hp
    obtain ⟨p0, hp0, rfl⟩ := List.mem_map.mp hp
    by_cases h1 : p0.id = wid
    · rw [hstepdef, resStep_of_wid h1] at he ⊢
      have hne0 : p0.positions ≠ [] := h.alive_nonempty p0 hp0 he
      simp [hne0]
    · by_cases h2 : p0.id = lid
      · rw [hstepdef, resStep_of_lid hwl h2] at he
        simp at he
      · rw [hstepdef, resStep_of_other h1 h2] at he ⊢
        exact h.alive_nonempty p0 hp0 he
  · refine ⟨?_, ?_⟩
    · rw [applyResolution_board_nrows]
      exact h.dims_pos.1
    · rw [applyResolution_board_ncols]
      exact h.dims_pos.2

theorem inv_resolve_duel (g : Game) (duel : Duel) (w : Int) (h : Inv g) :
    Inv (g.resolve_duel duel w).2 := by
  unfold Game.resolve_duel
  split
  · rename_i hmem
    split
    · exact h
    · rename_i d hres
      obtain ⟨hw, hd⟩ := duel_resolve_ok hres
      obtain ⟨hne, hreg1, hreg2⟩ := h.hist_ok duel hmem
      have hne2 : d.challenger_id ≠ d.challenged_id := by rw [hd]; exact hne
      have hwl : widOf d w ≠ lidOf d w := widOf_ne_lidOf d w hne2
      have hwreg : ∃ p ∈ g.players, p.id = widOf d w := by
        rcases widOf_or d w with h1 | h1 <;> rw [h1, hd]
        · exact hreg1
        · exact hreg2
      have hlreg : ∃ p ∈ g.players, p.id = lidOf d w := by
        rcases lidOf_or d w with h1 | h1 <;> rw [h1, hd]
        · exact hreg1
        · exact hreg2
      have hinv1 : Inv (g.applyResolution d.challenger_id (widOf d w) (lidOf d w)) :=
        inv_applyResolution g d.challenger_id (widOf d w) (lidOf d w) h hwl
          hwreg hlreg
      have hinv2 : Inv { g.applyResolution d.challenger_id (widOf d w) (lidOf d w)
          with duel_history := replaceFirst g.duel_history duel d } := by
        constructor
        · exact hinv1.nodup_ids
        · exact hinv1.pos_nodup
        · exact hinv1.cover
        · exact hinv1.disjoint
        · exact hinv1.grid_pos
        · exact hinv1.grid_dom
        · intro e he
          rcases mem_replaceFirst he with h1 | h1
          · exact hinv1.hist_ok e h1
          · obtain ⟨_, r1, r2⟩ := hinv1.hist_ok duel hmem
            have he1 : e.challenger_id = duel.challenger_id := by rw [h1, hd]
            have he2 : e.challenged_id = duel.challenged_id := by rw [h1, hd]
            refine ⟨?_, ?_, ?_⟩
            · rw [he1, he2]
              exact hne
            · rw [he1]
              exact r1
            · rw [he2]
              exact r2
        · exact hinv1.alive_nonempty
        · exact hinv1.dims_pos
      exact inv_transport hinv2 (checkOver_players _) (checkOver_board _)
        (checkOver_duel_history _)
  · exact h

theorem inv_start_turn (g : Game) (k : Nat) (h : Inv g) :
    Inv (g.start_turn k).2 := by
  simp only [Game.start_turn]
  split
  · exact inv_transport h rfl rfl rfl
  · split
    · exact inv_transport h rfl rfl rfl
    · exact inv_transport h rfl rfl rfl

theorem inv_step {g g2 : Game} (h : Inv g) (hs : GameStep g g2) : Inv g2 := by
  cases hs with
  | setExp pid cat => exact inv_set_player_expertise g pid cat h
  | chal a b => exact inv_challenge g a b h
  | duel d w => exact inv_resolve_duel g d w h
  | turn k => exact inv_start_turn g k h

/-- Every reachable state satisfies the inductive invariant. -/
theorem reachable_inv {g : Game} (h : Reachable g) : Inv g := by
  induction h with
  | base players nrows ncols g hids hinit => exact inv_init hids hinit
  | step g g2 hg hs ih => exact inv_step ih hs

/-! ### Shape lemmas for the claim theorems -/

theorem checkOver_cases (g : Game) :
    (∃ p, aliveFilter g.players = [p]
        ∧ (p.positions.length : Int) = g.board.capacity
        ∧ g.checkOver = { g with over := true, winner_id := some p.id })
    ∨ ((¬ ∃ p, aliveFilter g.players = [p]
          ∧ (p.positions.length : Int) = g.board.capacity)
        ∧ g.checkOver = g) := by
  by_cases hc : ∃ p, aliveFilter g.players = [p]
      ∧ (p.positions.length : Int) = g.board.capacity
  · obtain ⟨p, h1, h2⟩ := hc
    exact Or.inl ⟨p, h1, h2, checkOver_of_single h1 h2⟩
  · right
    refine ⟨hc, checkOver_of_not_single ?_⟩
    intro p h1 h2
    exact hc ⟨p, h1, h2⟩

theorem resolve_duel_ok_shape {g : Game} {duel : Duel} {w : Int} {g2 : Game}
    (h : g.resolve_duel duel w = (.ok (), g2)) :
    duel ∈ g.duel_history ∧ ∃ d, duel.resolve w = .ok d ∧
      g2 = Game.checkOver
        { g.applyResolution d.challenger_id (widOf d w) (lidOf d w) with
          duel_history := replaceFirst g.duel_history duel d } := by
  unfold Game.resolve_duel at h
  split at h
  · rename_i hmem
    split at h
    · simp at h
    · rename_i d hres
      refine ⟨hmem, d, hres, ?_⟩
      have h2 := congrArg Prod.snd h
      exact h2.symm
  · simp at h

theorem playersGet_map_idpres (l : List Player) (step : Player → Player)
    (hid : ∀ p, (step p).id = p.id) (x : Int) :
    playersGet (l.map step) x = (playersGet l x).map step := by
  unfold playersGet
  rw [List.find?_map]
  have hpred : ((fun p => decide (p.id = x)) ∘ step)
      = fun p : Player => decide (p.id = x) := by
    funext p
    simp [hid]
  rw [hpred]

theorem set_player_expertise_over (g : Game) (pid : Int) (cat : Category) :
    (g.set_player_expertise pid cat).2.over = g.over := by
  unfold Game.set_player_expertise
  split <;> rfl

theorem challenge_over (g : Game) (a b : Int) :
    (g.challenge a b).2.over = g.over := by
  unfold Game.challenge
  split
  · rfl
  · split
    · split <;> rfl
    · rfl

theorem start_turn_over (g : Game) (k : Nat) :
    (g.start_turn k).2.over = g.over := by
  simp only [Game.start_turn]
  split
  · rfl
  · split <;> rfl

theorem resolve_duel_over_mono (g : Game) (duel : Duel) (w : Int)
    (h : g.over = true) : (g.resolve_duel duel w).2.over = true := by
  unfold Game.resolve_duel
  split
  · split
    · exact h
    · exact checkOver_over_monotone _ h
  · exact h

/-! ### Concrete fixtures used by witnesses and counterexamples -/

def alice : Player := { id := 1, name := "Alice" }

def bob : Player := { id := 2, name := "Bob" }

def carol : Player := { id := 3, name := "Carol" }

def sciCat : Category := { name := "Science" }

def histCat : Category := { name := "History" }

/-- Fallback used only to make extraction from Except total; every use below
is on a construction proved successful. -/
def emptyGame : Game :=
  { players := [], board := { nrows := 0, ncols := 0, grid := fun _ => none },
    nrows := 0, ncols := 0, duel_history := [], over := false,
    winner_id := none, turn_challenger_id := none }

def gameOf (r : Except Err Game) : Game :=
  match r with
  | .ok g => g
  | .error _ => emptyGame

/-- The 1x2 game of the repository's own test scenario. -/
def g12 : Game := gameOf (Game.init [alice, bob] 1 2)

def g2a : Game := (g12.set_player_expertise 2 sciCat).2

def d2a : Duel := { challenger_id := 1, challenged_id := 2, category := sciCat }

def g2b : Game := (g2a.challenge 1 2).2

def g2c : Game := (g2b.resolve_duel d2a 2).2

/-- The duel after its first resolution, as the caller observes it. -/
def d2r : Duel :=
  { challenger_id := 1, challenged_id := 2, category := sciCat, winner_id := some 2 }

/-! ### The claims -/

/-- C1: for every reachable Game state, the union of all players' positions
equals the full set of board cells (a cell is in the board's dictionary
exactly when some player owns it), no two players share a cell, and the
board grid maps each cell to the id of the player whose positions contain
it. -/
theorem C1_partition_invariant (g : Game) (h : Reachable g) :
    (∀ q : Int × Int, inRange g.board q ↔ ∃ p ∈ g.players, q ∈ p.positions)
    ∧ (∀ p1 ∈ g.players, ∀ p2 ∈ g.players, ∀ q : Int × Int,
        q ∈ p1.positions → q ∈ p2.positions → p1 = p2)
    ∧ (∀ p ∈ g.players, ∀ q ∈ p.positions,
        g.board.grid q = some (some p.id)) := by
  have i := reachable_inv h
  exact ⟨i.cover, i.disjoint, i.grid_pos⟩

/-- Witness for C1 on the concrete 1x2 game. -/
theorem C1_partition_invariant_witness :
    Reachable g12 ∧
    ((∀ q : Int × Int, inRange g12.board q ↔ ∃ p ∈ g12.players, q ∈ p.positions)
    ∧ (∀ p1 ∈ g12.players, ∀ p2 ∈ g12.players, ∀ q : Int × Int,
        q ∈ p1.positions → q ∈ p2.positions → p1 = p2)
    ∧ (∀ p ∈ g12.players, ∀ q ∈ p.positions,
        g12.board.grid q = some (some p.id))) := by
  have hr : Reachable g12 := Reachable.base [alice, bob] 1 2 g12 (by decide) rfl
  exact ⟨hr, C1_partition_invariant g12 hr⟩

/-- C2: the claim says resolving a duel whose winner_id is already set must
fail with InvalidWinner; the code does not check this (the spec itself flags
the gap in section 9 and calls it a bug to fix).  On the concrete 1x2 game
the already-resolved duel is resolved again successfully, and resolving it
again with the other participant re-applies the ownership transfer. -/
theorem C2_resolve_already_resolved_succeeds :
    (g2b.resolve_duel d2a 2).1 = .ok ()
    ∧ d2r.winner_id = some 2
    ∧ d2r ∈ g2c.duel_history
    ∧ Duel.resolve d2r 2 = .ok d2r
    ∧ (g2c.resolve_duel d2r 2).1 = .ok ()
    ∧ (g2c.resolve_duel d2r 1).1 = .ok ()
    ∧ (playersGet (g2c.resolve_duel d2r 1).2.players 1).map Player.positions
        = some [(0, 1), (0, 0)] := by
  refine ⟨rfl, rfl, by decide, rfl, rfl, rfl, rfl⟩

def g13a : Game := gameOf (Game.init [alice, bob, carol] 1 3)

def g13b : Game := (g13a.set_player_expertise 2 sciCat).2

def g13c : Game := (g13b.set_player_expertise 3 histCat).2

def d13a : Duel := { challenger_id := 1, challenged_id := 2, category := sciCat }

def g13d : Game := (g13c.challenge 1 2).2

def g13e : Game := (g13d.resolve_duel d13a 2).2

def d13b : Duel := { challenger_id := 1, challenged_id := 3, category := histCat }

def g13f : Game := (g13e.challenge 1 3).2

/-- A reachable 1x3 state in which the eliminated player 1 has challenged
player 3 and won, regaining a cell while remaining marked eliminated. -/
def g13g : Game := (g13f.resolve_duel d13b 1).2

/-- The state of player 1 in g13g: eliminated yet owning cell (0, 2). -/
def aliceRegained : Player :=
  { id := 1, name := "Alice", expertise := none, positions := [(0, 2)], eliminated := true }

/-- Counterexample to C3 as stated: a reachable state (game still active)
containing a player with eliminated = true and nonempty positions.  Player 1
is eliminated in a first duel, then challenges player 3 (the code does not
prevent an eliminated player from challenging), wins, and receives player
3's cell without being revived. -/
theorem C3_counterexample :
    Reachable g13g
    ∧ (∃ p ∈ g13g.players, p.eliminated = true ∧ p.positions ≠ [])
    ∧ g13g.over = false := by
  refine ⟨?_, ?_, rfl⟩
  · have h0 : Reachable g13a :=
      Reachable.base [alice, bob, carol] 1 3 g13a (by decide) rfl
    have h1 : Reachable g13b :=
      Reachable.step _ _ h0 (GameStep.setExp g13a 2 sciCat)
    have h2 : Reachable g13c :=
      Reachable.step _ _ h1 (GameStep.setExp g13b 3 histCat)
    have h3 : Reachable g13d :=
      Reachable.step _ _ h2 (GameStep.chal g13c 1 2)
    have h4 : Reachable g13e :=
      Reachable.step _ _ h3 (GameStep.duel g13d d13a 2)
    have h5 : Reachable g13f :=
      Reachable.step _ _ h4 (GameStep.chal g13e 1 3)
    exact Reachable.step _ _ h5 (GameStep.duel g13f d13b 1)
  · exact ⟨aliceRegained, by decide, by decide, by decide⟩

/-- C3 amended: in every reachable state every non-eliminated player owns at
least one cell; the converse direction of the claimed equivalence (eliminated
implies no cells) fails, because an eliminated player who later wins a duel
regains cells while remaining marked eliminated. -/
theorem C3_amended_alive_owns_cell (g : Game) (h : Reachable g) :
    ∀ p ∈ g.players, p.eliminated = false → p.positions ≠ [] :=
  (reachable_inv h).alive_nonempty

/-- Witness for the amended C3 on the concrete 1x2 game. -/
theorem C3_amended_alive_owns_cell_witness :
    Reachable g12 ∧ ∀ p ∈ g12.players, p.eliminated = false → p.positions ≠ [] := by
  have hr : Reachable g12 := Reachable.base [alice, bob] 1 2 g12 (by decide) rfl
  exact ⟨hr, C3_amended_alive_owns_cell g12 hr⟩

/-- The 1x1 game: its sole player owns the whole board and is alive, yet
over is false at construction. -/
def g11 : Game := gameOf (Game.init [alice] 1 1)

/-- Player 1 as placed on the 1x1 board. -/
def alicePlaced : Player :=
  { id := 1, name := "Alice", expertise := none, positions := [(0, 0)], eliminated := false }

/-- Counterexample to C4 as stated: in the reachable (freshly constructed)
1x1 game exactly one non-eliminated player remains and owns capacity many
cells, yet over = false, so over does not hold exactly when the condition
holds. -/
theorem C4_counterexample :
    Reachable g11
    ∧ aliveFilter g11.players = [alicePlaced]
    ∧ (alicePlaced.positions.length : Int) = g11.board.capacity
    ∧ g11.over = false := by
  exact ⟨Reachable.base [alice] 1 1 g11 (by decide) rfl, by decide, by decide, rfl⟩

/-- C4 amended: over never reverts from true to false under any operation;
over is false right after construction; and a successful resolveDuel leaves
over true exactly when it was already true or, after the transfer, exactly
one non-eliminated player remains owning capacity many cells, in which case
winner_id is set to that player's id. -/
theorem C4_amended_over_transition (g g2 : Game) (hs : GameStep g g2) :
    (g.over = true → g2.over = true)
    ∧ (∀ players : List Player, ∀ nrows ncols : Int,
        Game.init players nrows ncols = .ok g2 → g2.over = false)
    ∧ (∀ duel w, g.resolve_duel duel w = (.ok (), g2) →
        ((g2.over = true ↔ (g.over = true
            ∨ ∃ p, aliveFilter g2.players = [p]
                ∧ (p.positions.length : Int) = g2.board.capacity))
          ∧ (g.over = false → g2.over = true →
              ∃ p, aliveFilter g2.players = [p]
                ∧ (p.positions.length : Int) = g2.board.capacity
                ∧ g2.winner_id = some p.id))) := by
  refine ⟨?_, ?_, ?_⟩
  · intro ho
    cases hs with
    | setExp pid cat => rw [set_player_expertise_over]; exact ho
    | chal a b => rw [challenge_over]; exact ho
    | duel d w => exact resolve_duel_over_mono g d w ho
    | turn k => rw [start_turn_over]; exact ho
  · intro ps nr nc hinit
    rw [init_ok_elim hinit]
  · intro duel w hok
    obtain ⟨hmem, d, hrd, hg2⟩ := resolve_duel_ok_shape hok
    set mid : Game :=
      { g.applyResolution d.challenger_id (widOf d w) (lidOf d w) with
        duel_history := replaceFirst g.duel_history duel d } with hmid
    have hmo : mid.over = g.over := rfl
    rcases checkOver_cases mid with ⟨p, h1, h2, h3⟩ | ⟨hnc, h3⟩
    · have hg2b : g2 = { mid with over := true, winner_id := some p.id } := by
        rw [hg2, h3]
      constructor
      · constructor
        · intro _
          right
          refine ⟨p, ?_, ?_⟩
          · rw [hg2b]; exact h1
          · rw [hg2b]; exact h2
        · intro _
          rw [hg2b]
      · intro _ _
        refine ⟨p, ?_, ?_, ?_⟩
        · rw [hg2b]; exact h1
        · rw [hg2b]; exact h2
        · rw [hg2b]
    · have hg2b : g2 = mid := by rw [hg2, h3]
      constructor
      · constructor
        · intro ho
          left
          rw [hg2b] at ho
          rw [← hmo]
          exact ho
        · rintro (ho | hex)
          · rw [hg2b, hmo]; exact ho
          · rw [hg2b] at hex
            exact absurd hex hnc
      · intro hgo ho2
        rw [hg2b, hmo, hgo] at ho2
        simp at ho2

/-- Witness for the amended C4 on the concrete 1x2 resolution step that ends
the game: the resolution sets over and records winner 2, and the over
characterization holds at that step. -/
theorem C4_amended_over_transition_witness :
    g2c.over = true ∧ g2c.winner_id = some 2 ∧ g2b.over = false
    ∧ (g2b.over = true → g2c.over = true)
    ∧ (g2c.over = true ↔ (g2b.over = true
        ∨ ∃ p, aliveFilter g2c.players = [p]
            ∧ (p.positions.length : Int) = g2c.board.capacity)) := by
  have h := C4_amended_over_transition g2b g2c (GameStep.duel g2b d2a 2)
  exact ⟨rfl, rfl, rfl, h.1, (h.2.2 d2a 2 rfl).1⟩

def g5c : Game := (g2b.set_player_expertise 1 histCat).2

def g5d : Game := (g5c.resolve_duel d2a 2).2

/-- Counterexample to C5 as stated: in the 1x2 game the challenger (player
1) has no expertise at challenge time, then declares History before the duel
is resolved; the winner (player 2) ends with History, the challenger's
resolution-time expertise, not the challenge-time one (none). -/
theorem C5_counterexample :
    (g2a.challenge 1 2).1 = .ok d2a
    ∧ (playersGet g2b.players 1).map Player.expertise = some none
    ∧ (g5c.resolve_duel d2a 2).1 = .ok ()
    ∧ (playersGet g5d.players 2).map Player.expertise = some (some histCat)
    ∧ some (some histCat) ≠ some (none : Option Category) := by
  exact ⟨rfl, rfl, rfl, rfl, by decide⟩

/-- C5 amended: after a successful resolveDuel the winner's expertise equals
the challenger's expertise as it stands when the duel is resolved (the code
reads the challenger object live), for a duel between distinct ids whose
challenger and winner are registered. -/
theorem C5_amended_winner_inherits_current (g g2 : Game) (duel : Duel)
    (w : Int) (pc pw : Player)
    (hne : duel.challenger_id ≠ duel.challenged_id)
    (hres : g.resolve_duel duel w = (.ok (), g2))
    (hpc : playersGet g.players duel.challenger_id = some pc)
    (hpw : playersGet g.players (widOf duel w) = some pw) :
    (playersGet g2.players (widOf duel w)).map Player.expertise
      = some pc.expertise := by
  obtain ⟨hmem, d, hrd, hg2⟩ := resolve_duel_ok_shape hres
  obtain ⟨hw, hdef⟩ := duel_resolve_ok hrd
  subst hdef
  have hwl : widOf { duel with winner_id := some w } w
      ≠ lidOf { duel with winner_id := some w } w :=
    widOf_ne_lidOf _ w hne
  have hplayers : g2.players = g.players.map
      (resStep (widOf { duel with winner_id := some w } w)
        (lidOf { duel with winner_id := some w } w)
        (loserPositionsOf g (lidOf { duel with winner_id := some w } w))
        (chExpOf g ({ duel with winner_id := some w } : Duel).challenger_id)) := by
    rw [hg2, checkOver_players]
    exact applyResolution_players g _ _ _ hwl
  rw [hplayers, playersGet_map_idpres _ _ (fun p => resStep_id .. ) _, hpw]
  have hpwid : pw.id = widOf { duel with winner_id := some w } w :=
    (playersGet_eq_some hpw).2
  have hexp : (resStep (widOf { duel with winner_id := some w } w)
      (lidOf { duel with winner_id := some w } w)
      (loserPositionsOf g (lidOf { duel with winner_id := some w } w))
      (chExpOf g ({ duel with winner_id := some w } : Duel).challenger_id)
      pw).expertise = pc.expertise := by
    rw [resStep_of_wid hpwid]
    exact chExpOf_eq hpc
  exact congrArg some hexp

/-- Player 1 after declaring History between challenge and resolution. -/
def aliceHist : Player :=
  { id := 1, name := "Alice", expertise := some histCat, positions := [(0, 0)], eliminated := false }

/-- Witness for the amended C5 on the concrete trace of the counterexample. -/
theorem C5_amended_winner_inherits_current_witness :
    d2a.challenger_id ≠ d2a.challenged_id
    ∧ g5c.resolve_duel d2a 2 = (.ok (), g5d)
    ∧ playersGet g5c.players d2a.challenger_id = some aliceHist
    ∧ (playersGet g5d.players (widOf d2a 2)).map Player.expertise
        = some aliceHist.expertise := by
  refine ⟨by decide, rfl, rfl, ?_⟩
  exact C5_amended_winner_inherits_current g5c g5d d2a 2 aliceHist
    { id := 2, name := "Bob", expertise := some sciCat, positions := [(0, 1)], eliminated := false }
    (by decide) rfl rfl rfl

/-- The challenge contract as the spec states it, for comparison with the
source's Game.challenge: SelfChallenge on equal ids, UnknownPlayer when
either id is unregistered, NoExpertiseSet when the challenged player has no
declared expertise, and otherwise a new unresolved duel on the challenged
player's current expertise, appended to duel_history and returned. -/
def challengeSpec (g : Game) (challenger_id challenged_id : Int) :
    Except Err Duel × Game :=
  if challenger_id = challenged_id then (.error .SelfChallenge, g)
  else
    match playersGet g.players challenger_id,
          playersGet g.players challenged_id with
    | none, _ => (.error .UnknownPlayer, g)
    | _, none => (.error .UnknownPlayer, g)
    | some _, some challenged =>
      match challenged.expertise with
      | none => (.error .NoExpertiseSet, g)
      | some cat =>
        let duel : Duel := { challenger_id := challenger_id,
                             challenged_id := challenged_id,
                             category := cat, winner_id := none }
        (.ok duel, { g with duel_history := g.duel_history ++ [duel] })

/-- C6: Game.challenge implements exactly the claimed contract, including
the error taxonomy and its order of checks, with no further precondition on
success. -/
theorem C6_challenge_contract (g : Game) (cid tid : Int) :
    g.challenge cid tid = challengeSpec g cid tid := by
  unfold Game.challenge challengeSpec
  by_cases h1 : cid = tid
  · simp [h1]
  · simp only [if_neg h1]
    cases hc : playersGet g.players cid <;>
      cases ht : playersGet g.players tid <;> rfl

/-- Witness for C6: the contract instantiated on the concrete 1x2 game. -/
theorem C6_challenge_contract_witness :
    g2a.challenge 1 2 = challengeSpec g2a 1 2 ∧ (g2a.challenge 1 2).1 = .ok d2a :=
  ⟨C6_challenge_contract g2a 1 2, rfl⟩

/-- The cell (i div cols, i mod cols) named by C7; for cols > 0 the Nat
division over cols.toNat agrees with the claim's division by cols. -/
def rmCell (cols : Int) (i : Nat) : Int × Int :=
  (((i / cols.toNat : Nat) : Int), ((i % cols.toNat : Nat) : Int))

/-- C7: with positive dimensions, construction fails with
CardinalityMismatch exactly when the player count differs from rows*cols;
on success the i-th player of the list keeps their id and owns exactly the
single row-major cell (i div cols, i mod cols), and the grid maps that cell
to their id. -/
theorem C7_construction_row_major (players : List Player) (rows cols : Int)
    (hr : 0 < rows) (hc : 0 < cols)
    (_hids : (players.map Player.id).Nodup) :
    (Game.init players rows cols = .error .CardinalityMismatch
      ↔ (players.length : Int) ≠ rows * cols)
    ∧ (∀ g : Game, Game.init players rows cols = .ok g →
        g.players.length = players.length
        ∧ ∀ i : Nat, ∀ hi : i < players.length,
            (∃ p, g.players[i]? = some p ∧ p.id = players[i].id
              ∧ p.positions = [rmCell cols i])
            ∧ g.board.grid (rmCell cols i) = some (some players[i].id)) := by
  constructor
  · constructor
    · intro herr
      by_contra hlen
      rw [init_eq_of hlen hr hc] at herr
      exact absurd herr (by simp)
    · intro hne
      unfold Game.init
      rw [if_pos hne]
  · intro g hok
    obtain ⟨hlen, _, _⟩ := init_ok_conditions hok
    have hg := init_ok_elim hok
    subst hg
    have hcast : ((rows.toNat * cols.toNat : Nat) : Int) = rows * cols := by
      push_cast
      rw [Int.toNat_of_nonneg (by omega), Int.toNat_of_nonneg (by omega)]
    have hlenN : (cellsOf rows cols).length = players.length := by
      rw [length_cellsOf]
      exact_mod_cast (hlen.trans hcast.symm).symm
    have hfst : ((cellsOf rows cols).zip players).map Prod.fst
        = cellsOf rows cols :=
      List.map_fst_zip _ _ (le_of_eq hlenN)
    have hndz : (((cellsOf rows cols).zip players).map Prod.fst).Nodup := by
      rw [hfst]
      exact nodup_cellsOf rows cols
    constructor
    · show (placedPlayers players rows cols).length = players.length
      unfold placedPlayers
      rw [List.length_map, List.length_zip, hlenN, Nat.min_self]
    · intro i hi
      have hizc : i < (cellsOf rows cols).length := by rw [hlenN]; exact hi
      have hiz : i < ((cellsOf rows cols).zip players).length := by
        rw [List.length_zip, hlenN]
        omega
      have hcelli : (cellsOf rows cols)[i] = rmCell cols i := by
        have h2 : i < rows.toNat * cols.toNat := by
          rw [← length_cellsOf rows cols]
          exact hizc
        have h1 : (cellsOf rows cols)[i]? = some (rmCell cols i) :=
          getElem?_cellsN h2
        rw [List.getElem?_eq_getElem hizc] at h1
        exact Option.some.inj h1
      have hzipi : ((cellsOf rows cols).zip players)[i]
          = ((cellsOf rows cols)[i], players[i]) := List.getElem_zip ..
      constructor
      · refine ⟨{ players[i] with positions := [rmCell cols i] }, ?_, rfl, rfl⟩
        show (placedPlayers players rows cols)[i]? = _
        unfold placedPlayers
        rw [List.getElem?_map, List.getElem?_eq_getElem hiz, hzipi, hcelli]
        rfl
      · show placeGrid players rows cols (rmCell cols i)
          = some (some players[i].id)
        have hmem : ((cellsOf rows cols).zip players)[i]
            ∈ (cellsOf rows cols).zip players := List.getElem_mem hiz
        have h3 := foldl_gridSet_nodup_mem Prod.fst
          (fun cp : (Int × Int) × Player => some cp.2.id)
          ((cellsOf rows cols).zip players) (initGrid rows cols)
          (((cellsOf rows cols).zip players)[i]) hndz hmem
        rw [hzipi] at h3
        dsimp only at h3
        rw [hcelli] at h3
        exact h3

/-- Witness for C7 on the concrete two-player list with a 1x2 board. -/
theorem C7_construction_row_major_witness :
    (Game.init [alice, bob] 1 2 = .error .CardinalityMismatch
      ↔ (([alice, bob].length : Int) ≠ 1 * 2))
    ∧ (∀ g : Game, Game.init [alice, bob] 1 2 = .ok g →
        g.players.length = [alice, bob].length
        ∧ ∀ i : Nat, ∀ hi : i < [alice, bob].length,
            (∃ p, g.players[i]? = some p ∧ p.id = [alice, bob][i].id
              ∧ p.positions = [rmCell 2 i])
            ∧ g.board.grid (rmCell 2 i) = some (some [alice, bob][i].id)) :=
  C7_construction_row_major [alice, bob] 1 2 (by decide) (by decide) (by decide)

/-- The non-eliminated players, as Game.start_turn computes them. -/
def turnAlive (g : Game) : List Player := aliveFilter g.players

/-- The non-eliminated players owning exactly one cell. -/
def turnOnes (g : Game) : List Player :=
  (turnAlive g).filter fun p => p.positions.length = 1

/-- The candidate pool Game.start_turn draws from: the single-cell owners
when any exist, otherwise all non-eliminated players. -/
def turnPool (g : Game) : List Player :=
  if (turnOnes g).isEmpty then turnAlive g else turnOnes g

theorem start_turn_eq (g : Game) (k : Nat) :
    g.start_turn k =
      if (turnAlive g).isEmpty then (none, { g with turn_challenger_id := none })
      else
        match (turnPool g)[k % (turnPool g).length]? with
        | some p => (some p.id, { g with turn_challenger_id := some p.id })
        | none => (none, { g with turn_challenger_id := none }) := rfl

/-- C8: start_turn picks the element of the preferred pool indexed by the
uniformly random draw k (random.choice is modelled as a uniformly random
index into its sequence), records its id in turn_challenger_id and returns
it; it returns none with turn_challenger_id unset exactly when no
non-eliminated player remains; the pool is the single-cell owners when any
exist and all alive players otherwise, and never contains an eliminated
player. -/
theorem C8_start_turn_selection (g : Game) (k : Nat) :
    ((g.start_turn k).1 = none ↔ turnAlive g = [])
    ∧ (turnAlive g = [] →
        g.start_turn k = (none, { g with turn_challenger_id := none }))
    ∧ (turnAlive g ≠ [] →
        ∃ hlt : k % (turnPool g).length < (turnPool g).length,
          ∃ chosen : Player,
            chosen = (turnPool g).get ⟨k % (turnPool g).length, hlt⟩
            ∧ g.start_turn k
              = (some chosen.id, { g with turn_challenger_id := some chosen.id }))
    ∧ (turnOnes g ≠ [] → turnPool g = turnOnes g)
    ∧ (turnOnes g = [] → turnPool g = turnAlive g)
    ∧ (∀ p ∈ turnPool g, p ∈ turnAlive g ∧ p.eliminated = false) := by
  have h4 : turnOnes g ≠ [] → turnPool g = turnOnes g := by
    intro h
    unfold turnPool
    rw [if_neg (by simpa [List.isEmpty_iff] using h)]
  have h5 : turnOnes g = [] → turnPool g = turnAlive g := by
    intro h
    unfold turnPool
    rw [if_pos (by simpa [List.isEmpty_iff] using h)]
  have h6 : ∀ p ∈ turnPool g, p ∈ turnAlive g ∧ p.eliminated = false := by
    intro p hp
    have hpa : p ∈ turnAlive g := by
      unfold turnPool at hp
      split at hp
      · exact hp
      · exact List.mem_of_mem_filter hp
    exact ⟨hpa, (mem_aliveFilter.mp hpa).2⟩
  by_cases he : (turnAlive g).isEmpty
  · have he2 : turnAlive g = [] := List.isEmpty_iff.mp he
    refine ⟨?_, ?_, ?_, h4, h5, h6⟩
    · rw [start_turn_eq, if_pos he]
      exact iff_of_true rfl he2
    · intro _
      rw [start_turn_eq, if_pos he]
    · intro hne
      exact absurd he2 hne
  · have he2 : turnAlive g ≠ [] := by
      intro hh
      exact he (List.isEmpty_iff.mpr hh)
    have hpne : turnPool g ≠ [] := by
      unfold turnPool
      split
      · exact he2
      · rename_i hones
        intro hh
        exact hones (List.isEmpty_iff.mpr hh)
    have hlt : k % (turnPool g).length < (turnPool g).length :=
      Nat.mod_lt k (List.length_pos.mpr hpne)
    refine ⟨?_, ?_, ?_, h4, h5, h6⟩
    · rw [start_turn_eq, if_neg he, List.getElem?_eq_getElem hlt]
      exact iff_of_false (by simp) he2
    · intro hh
      exact absurd hh he2
    · intro _
      refine ⟨hlt, _, rfl, ?_⟩
      rw [start_turn_eq, if_neg he, List.getElem?_eq_getElem hlt]
      rfl

/-- Witness for C8: the selection characterization instantiated on the
concrete 1x2 game with random draw 0. -/
theorem C8_start_turn_selection_witness :
    ((g12.start_turn 0).1 = none ↔ turnAlive g12 = [])
    ∧ (∀ p ∈ turnPool g12, p ∈ turnAlive g12 ∧ p.eliminated = false)
    ∧ (g12.start_turn 0).1 = some 1 := by
  have h := C8_start_turn_selection g12 0
  exact ⟨h.1, h.2.2.2.2.2, rfl⟩

/-- Counterexample to C9 as stated: out-of-range coordinates do not fail
with OutOfRange; Board.get_player_at is a total dictionary read (the grid
holds no such key) and returns none, indistinguishable from an unowned
cell. -/
theorem C9_counterexample :
    g12.board.get_player_at 0 5 = none
    ∧ g12.board.get_player_at (-1) 0 = none
    ∧ ¬ inRange g12.board (0, 5)
    ∧ g12.board.grid (0, 5) = none :=
  ⟨rfl, rfl, by decide, rfl⟩

/-- C9 amended: for in-range coordinates ownerAt returns the owning
player's id; for out-of-range coordinates it returns none (no failure is
raised). -/
theorem C9_amended_get_player_at (g : Game) (h : Reachable g)
    (row col : Int) :
    (¬ inRange g.board (row, col) → g.board.get_player_at row col = none)
    ∧ (inRange g.board (row, col) →
        ∃ p ∈ g.players, (row, col) ∈ p.positions
          ∧ g.board.get_player_at row col = some p.id) := by
  have i := reachable_inv h
  constructor
  · intro hn
    unfold Board.get_player_at
    rw [i.grid_dom _ hn]
    rfl
  · intro hin
    obtain ⟨p, hp, hq⟩ := (i.cover (row, col)).mp hin
    refine ⟨p, hp, hq, ?_⟩
    unfold Board.get_player_at
    rw [i.grid_pos p hp _ hq]
    rfl

/-- Witness for the amended C9 on the concrete 1x2 game at cell (0, 0). -/
theorem C9_amended_get_player_at_witness :
    Reachable g12
    ∧ ((¬ inRange g12.board (0, 0) → g12.board.get_player_at 0 0 = none)
      ∧ (inRange g12.board (0, 0) →
          ∃ p ∈ g12.players, ((0 : Int), (0 : Int)) ∈ p.positions
            ∧ g12.board.get_player_at 0 0 = some p.id)) := by
  have hr : Reachable g12 := Reachable.base [alice, bob] 1 2 g12 (by decide) rfl
  exact ⟨hr, C9_amended_get_player_at g12 hr 0 0⟩

/-- C10: each fallible mutating operation checks all its preconditions
before mutating anything, so on any failure the returned state is exactly
the input state.  start_turn never fails, and a failing construction
returns an error with no Game at all, so there is no state to preserve. -/
theorem C10_atomic_failures (g : Game) (pid : Int) (cat : Category)
    (cid tid : Int) (duel : Duel) (w : Int) :
    (∀ e, (g.set_player_expertise pid cat).1 = .error e
      → (g.set_player_expertise pid cat).2 = g)
    ∧ (∀ e, (g.challenge cid tid).1 = .error e → (g.challenge cid tid).2 = g)
    ∧ (∀ e, (g.resolve_duel duel w).1 = .error e
      → (g.resolve_duel duel w).2 = g) := by
  refine ⟨?_, ?_, ?_⟩
  · intro e h
    unfold Game.set_player_expertise at h ⊢
    cases hm : playersGet g.players pid
    · simp only [hm]
    · rw [hm] at h
      simp at h
  · intro e h
    unfold Game.challenge at h ⊢
    by_cases h1 : cid = tid
    · simp only [if_pos h1]
    · simp only [if_neg h1] at h ⊢
      cases hc : playersGet g.players cid <;>
        cases ht : playersGet g.players tid <;> simp only [hc, ht] at h ⊢
      rename_i challenged
      cases hx : challenged.expertise
      · simp only [hx]
      · rw [hx] at h
        simp at h
  · intro e h
    unfold Game.resolve_duel at h ⊢
    by_cases hmem : duel ∈ g.duel_history
    · simp only [if_pos hmem] at h ⊢
      cases hres : duel.resolve w
      · simp only [hres]
      · rw [hres] at h
        simp at h
    · simp only [if_neg hmem]

/-- Witness for C10: concrete failing calls (unknown player id,
self-challenge, unregistered duel) leave the concrete 1x2 game unchanged. -/
theorem C10_atomic_failures_witness :
    (g12.set_player_expertise 99 sciCat).1 = .error .UnknownPlayer
    ∧ (g12.set_player_expertise 99 sciCat).2 = g12
    ∧ (g12.challenge 1 1).1 = .error .SelfChallenge
    ∧ (g12.challenge 1 1).2 = g12
    ∧ (g12.resolve_duel d2a 1).1 = .error .UnknownDuel
    ∧ (g12.resolve_duel d2a 1).2 = g12 := by
  have h := C10_atomic_failures g12 99 sciCat 1 1 d2a 1
  exact ⟨rfl, h.1 .UnknownPlayer rfl, rfl, h.2.1 .SelfChallenge rfl, rfl,
    h.2.2 .UnknownDuel rfl⟩

end TheFloorGame
